import Mathlib

/-!
Verification development for the redux-arg repository.

The repository declares nested application-state shapes once and derives
reducers, action creators and selectors from them, plus a validation engine
that sanitizes untrusted payloads against the declared shape.

The shallow embedding below models:
* the reducer compiler `buildReducers` / `processStructure`
  (src/redux-arg/generateReducer.js), translated directly from the source;
* the validation engine (`validateValue`, `validateArray`, `validateShape`,
  `getValueType`, `hasWildcardKey`) and the batch / resetAll machinery.
  Those files (structure.js, validatePayload.js, reducers.js,
  buildStoreChunk.js) are not present under src/ (only their tests and
  callers are), so they are modelled from the specification, as indicated by
  the doc comments of the corresponding definitions.

JavaScript values are modelled by the inductive `Value`; JavaScript objects
are association lists preserving key order, arrays are lists, and the
JavaScript `undefined` is the constructor `Value.undef`.
-/

/-- JavaScript runtime values, as far as the validation engine observes them:
strings, numbers, booleans, `undefined`, plain objects (ordered key/value
lists) and arrays. -/
inductive Value where
  | str (s : String)
  | num (n : Int)
  | bool (b : Bool)
  | undef
  | obj (fields : List (String × Value))
  | arr (elems : List Value)

/-- Primitive type kinds of the structure definition language:
`Types.string`, `Types.number`, `Types.boolean`, `Types.any`. -/
inductive PrimKind where
  | string | number | boolean | any
  deriving DecidableEq, Repr

/-- Type tags (`PROP_TYPES`) carried by an evaluated structure descriptor. -/
inductive PropType where
  | stringT | numberT | booleanT | anyT | customT | shapeT | arrayT | reducerT | wildcardT
  deriving DecidableEq, Repr

/-!
## Reducer-compiler structures

`buildReducers` receives a mapping of property names to deferred structure
descriptors (zero-argument thunks).  Calling a descriptor yields
`{type, structure?}`.  `CNode` models one evaluated descriptor as the
compiler observes it.  `Types.reducer` accepts either a single descriptor
(`reducerOfNode`) or a plain object of descriptors (`reducerOfMap`), matching
the two usages exercised by buildStoreChunk.test.js.
-/

/-- Compiler-facing structure node: the result of evaluating a property's
descriptor thunk.  Modelled from the spec (structure.js is not under src/):
`shape` carries its children as a plain object, `arrayOf` carries its element
descriptor as a thunk, and `reducer` carries whatever was passed to it. -/
inductive CNode where
  | prim (t : PropType)
  | shape (children : List (String × CNode))
  | arrayOf (elem : CNode)
  | reducerOfNode (inner : CNode)
  | reducerOfMap (inner : List (String × CNode))

/-- The `type` tag of an evaluated descriptor (`propValue().type`). -/
def typeOf : CNode → PropType
  | .prim t => t
  | .shape _ => .shapeT
  | .arrayOf _ => .arrayT
  | .reducerOfNode _ => .reducerT
  | .reducerOfMap _ => .reducerT

/-- The `structure` field of an evaluated descriptor, as lodash `find` can
iterate it (generateReducer.js:52-53).  `find` iterates the own enumerable
values of a plain object; a thunk (a function) or an absent field yields
nothing to iterate, hence `none`. -/
def findStructure : CNode → Option (List (String × CNode))
  | .shape ch => some ch
  | .reducerOfMap m => some m
  | _ => none

/-- The boundary test of processStructure (generateReducer.js:53):
`!!find(propStructure, v => v().type === PROP_TYPES._reducer)`.
It inspects only the direct values of the property's substructure. -/
def containsReducers (c : CNode) : Bool :=
  match findStructure c with
  | some m => m.any (fun p => typeOf p.2 == PropType.reducerT)
  | none => false

mutual
/-- Whether a reducer boundary occurs anywhere inside a node, at any depth.
This follows the spec's wording for the boundary scan ("scan for the
`ReducerBoundary` tag at any depth within it"); it is the comparison point
for the one-level scan actually performed by `containsReducers`. -/
def subtreeHasReducer : CNode → Bool
  | .prim _ => false
  | .shape ch => mapHasReducer ch
  | .arrayOf e => subtreeHasReducer e
  | .reducerOfNode _ => true
  | .reducerOfMap _ => true

/-- Whether any value of a descriptor mapping contains a reducer boundary. -/
def mapHasReducer : List (String × CNode) → Bool
  | [] => false
  | p :: rest => subtreeHasReducer p.2 || mapHasReducer rest
end

/-- The spec's any-depth boundary scan applied to a property's substructure:
true when the substructure contains a `ReducerBoundary` tag at any depth. -/
def containsReducersAnyDepth (c : CNode) : Bool :=
  match findStructure c with
  | some m => mapHasReducer m
  | none => false

/-!
## Reducer-compiler output

The compiler returns `{reducers, actionsObject, selectorsObject}`.  Reducer
and action trees bottom out in the output of `createReducer`; selector trees
bottom out in selector closures `state => baseSelector(state)[propName]`,
which are modelled by the access path they index with.
-/

/-- Reducer tree: a leaf reducer created by `createReducer`, or the result of
`combineReducers` over named child reducers.  Modelled from the spec:
reducers.js is not under src/; for the compiler claims only the leaf/branch
distinction of `createReducer`'s output matters, so a leaf is tagged with the
structure node it was compiled from. -/
inductive RTree where
  | leaf (c : CNode)
  | combined (children : List (String × RTree))

/-- Action-creator tree: the flat action-creator object of a compiled leaf
(`createReducer`), or a mapping of child names.  Modelled from the spec:
reducers.js is not under src/; only the leaf/branch distinction matters
for the compiler claims. -/
inductive ATree where
  | leafActions (c : CNode)
  | node (children : List (String × ATree))

/-- Selector tree: either a plain selector function (modelled by the access
path it reads, i.e. the composition "base selector, then index by each
name"), or a mapping of child names to nested selectors. -/
inductive SelTree where
  | fn (path : List String)
  | node (children : List (String × SelTree))

/-- The `{reducers, actionsObject, selectorsObject}` record built by
`buildReducers` (called PartialReducer in the source's flow types). -/
structure ReducerBundle where
  reducers : RTree
  actionsObject : ATree
  selectorsObject : SelTree

/-- Accumulator of the lodash `reduce` in buildReducers: the partially built
`reducers`, `actionsObject` and `selectorsObject` entry lists. -/
abbrev BuildAcc :=
  List (String × RTree) × List (String × ATree) × List (String × SelTree)

/-- The processStructure fold step (generateReducer.js:47-82), merging one
property into the accumulated triple.  `recurse` is the recursive
`buildReducers` call used when the property's substructure contains reducers;
its first argument is the property name, then the composed base selector and
the extended location string (`none` models a call that never returns).  When
the property does not contain reducers, `createReducer` compiles the leaf.
The selector entry is the closure `state => baseSelector(state)[propName]`
(generateReducer.js:77-80), unconditionally. -/
def processStructure (recurse : String → List String → String → Option ReducerBundle)
    (baseSelector : List String) (locationString : String)
    (acc : Option BuildAcc) (p : String × CNode) : Option BuildAcc :=
  match acc with
  | none => none
  | some (rs, acts, sels) =>
    if containsReducers p.2 then
      match recurse p.1 (baseSelector ++ [p.1]) (locationString ++ "." ++ p.1) with
      | none => none
      | some child =>
        some (rs ++ [(p.1, child.reducers)],
              acts ++ [(p.1, child.actionsObject)],
              sels ++ [(p.1, SelTree.fn (baseSelector ++ [p.1]))])
    else
      some (rs ++ [(p.1, RTree.leaf p.2)],
            acts ++ [(p.1, ATree.leafActions p.2)],
            sels ++ [(p.1, SelTree.fn (baseSelector ++ [p.1]))])

/-- buildReducers (generateReducer.js:25-83), fuel-indexed: `none` means the
call did not return within `fuel` nested recursive calls; a result that is
`none` for every fuel models a call that never returns.  The recursive call
at generateReducer.js:59 passes `structure` — the parent's whole mapping —
not the property's own substructure; the embedding reproduces that
faithfully by handing `struct` unchanged to the recursion. -/
def buildReducersCode :
    Nat → String → List (String × CNode) → List String → String → Option ReducerBundle
  | 0, _, _, _, _ => none
  | fuel + 1, _name, struct, baseSelector, locationString =>
    match struct.foldl
        (processStructure
          (fun propName bs loc => buildReducersCode fuel propName struct bs loc)
          baseSelector locationString)
        (some ([], [], [])) with
    | none => none
    | some (rs, acts, sels) =>
      some ⟨RTree.combined rs, ATree.node acts, SelTree.node sels⟩

/-!
## Claims C1-C4: the reducer compiler

C1: generateReducer.js:59 recurses with `structure`, the parent's whole
mapping, instead of the property's own substructure.  Whenever some property
contains a nested reducer boundary, the recursive call meets the very same
mapping again and recurses forever; `buildReducersCode` therefore returns
`none` at every fuel.  The structure below is the nested4 shape of
buildStoreChunk.test.js reduced to one nested boundary.
-/

/-- A store-chunk mapping with one property whose substructure holds a
reducer boundary: `{nested: Types.reducer({inner: Types.reducer(string)})}`. -/
def nestedBoundaryChunk : List (String × CNode) :=
  [("nested", CNode.reducerOfMap
    [("inner", CNode.reducerOfNode (CNode.prim PropType.stringT))])]

/-- C1: buildReducers does not recurse on the property's own substructure:
generateReducer.js:59 hands the parent's whole `structure` to the recursive
call, so on a mapping with a nested reducer boundary the compiler re-enters
itself on the same mapping forever and never produces a result, for any
fuel, any name, any base selector and any location string. -/
theorem buildReducers_recurses_on_parent_structure_diverges :
    ∀ (fuel : Nat) (name : String) (baseSelector : List String)
      (locationString : String),
    buildReducersCode fuel name nestedBoundaryChunk baseSelector locationString
      = none := by
  intro fuel
  induction fuel with
  | zero => intro name bs loc; rfl
  | succ n ih =>
    intro name bs loc
    have ih' := ih "nested" (bs ++ ["nested"]) (loc ++ "." ++ "nested")
    simp only [nestedBoundaryChunk] at ih'
    simp [buildReducersCode, nestedBoundaryChunk, List.foldl, processStructure,
      containsReducers, findStructure, typeOf, ih']

/-- A property whose substructure contains a reducer boundary only at depth
two: `Types.reducer({a: Types.shape({b: Types.reducer(number)})})`.  Its
direct substructure values are a single shape, so the one-level scan of
generateReducer.js:53 sees no reducer. -/
def deepBoundaryProp : CNode :=
  CNode.reducerOfMap
    [("a", CNode.shape [("b", CNode.reducerOfNode (CNode.prim PropType.numberT))])]

/-- C2 counterexample: the boundary decision is not an any-depth scan.  For
`deepBoundaryProp` the substructure contains a `ReducerBoundary` tag at depth
two, yet `containsReducers` — the decision actually taken at
generateReducer.js:53 — is false, and the compiler compiles the property as
a leaf (`createReducer`) instead of recursing. -/
theorem containsReducers_misses_deep_boundary :
    containsReducers deepBoundaryProp = false ∧
    containsReducersAnyDepth deepBoundaryProp = true ∧
    buildReducersCode 1 "store" [("p", deepBoundaryProp)] [] "store" =
      some ⟨RTree.combined [("p", RTree.leaf deepBoundaryProp)],
            ATree.node [("p", ATree.leafActions deepBoundaryProp)],
            SelTree.node [("p", SelTree.fn ["p"])]⟩ :=
  ⟨rfl, rfl, rfl⟩

/-- C2 amended: the boundary decision scans only the direct values of the
property's substructure for the `ReducerBoundary` tag.  Whenever none of
those direct values is tagged as a reducer — even if a boundary sits deeper
inside — the property is compiled as a leaf by `createReducer` and no
recursion happens. -/
theorem buildReducers_boundary_scan_is_one_level
    (name propName : String) (v : CNode)
    (baseSelector : List String) (locationString : String)
    (h : ((findStructure v).getD []).all
        (fun p => !(typeOf p.2 == PropType.reducerT)) = true) :
    buildReducersCode 1 name [(propName, v)] baseSelector locationString =
      some ⟨RTree.combined [(propName, RTree.leaf v)],
            ATree.node [(propName, ATree.leafActions v)],
            SelTree.node [(propName, SelTree.fn (baseSelector ++ [propName]))]⟩ := by
  have hc : containsReducers v = false := by
    unfold containsReducers
    cases hf : findStructure v with
    | none => rfl
    | some m =>
      rw [hf] at h
      simp only [Option.getD_some, List.all_eq_true] at h
      simp only [List.any_eq_false]
      intro p hp
      have := h p hp
      simpa using this
  simp only [buildReducersCode, List.foldl, processStructure, hc]
  rfl

/-- C2 amended, witness: a shape property hiding a boundary two levels down
is compiled as a leaf. -/
theorem buildReducers_boundary_scan_is_one_level_witness :
    buildReducersCode 1 "store"
      [("q", CNode.shape [("a", CNode.shape
        [("b", CNode.reducerOfNode (CNode.prim PropType.stringT))])])] [] "store" =
      some ⟨RTree.combined [("q", RTree.leaf (CNode.shape [("a", CNode.shape
              [("b", CNode.reducerOfNode (CNode.prim PropType.stringT))])]))],
            ATree.node [("q", ATree.leafActions (CNode.shape [("a", CNode.shape
              [("b", CNode.reducerOfNode (CNode.prim PropType.stringT))])]))],
            SelTree.node [("q", SelTree.fn ["q"])]⟩ :=
  buildReducers_boundary_scan_is_one_level "store" "q" _ [] "store" (by decide)

/-- The nested4 structure of buildStoreChunk.test.js:36-41, preceded by a
plain nested leaf boundary:
`{nested1: Types.reducer(string), nested4: Types.reducer({innerNested1:
Types.reducer(string), innerNested2: Types.reducer({innerNested3:
Types.reducer(string)})})}`. -/
def nested4Chunk : List (String × CNode) :=
  [("nested1", CNode.reducerOfNode (CNode.prim PropType.stringT)),
   ("nested4", CNode.reducerOfMap
     [("innerNested1", CNode.reducerOfNode (CNode.prim PropType.stringT)),
      ("innerNested2", CNode.reducerOfMap
        [("innerNested3", CNode.reducerOfNode (CNode.prim PropType.stringT))])])]

/-- C3: on the test suite's nested structure the compiler cannot build the
parallel `reducers`/`actions`/`selectors` trees at all: processing `nested4`
re-enters the whole mapping (generateReducer.js:59) and never returns, at
any fuel — while buildStoreChunk.test.js:60-77 and 104-109 demand that
`selectors.nested4` and `actions.nested4` be mappings with the key set
`[innerNested1, innerNested2]`. -/
theorem buildReducers_nested4_produces_no_branch_node :
    ∀ (fuel : Nat) (name : String) (baseSelector : List String)
      (locationString : String),
    buildReducersCode fuel name nested4Chunk baseSelector locationString
      = none := by
  intro fuel
  induction fuel with
  | zero => intro name bs loc; rfl
  | succ n ih =>
    intro name bs loc
    have ih' := ih "nested4" (bs ++ ["nested4"]) (loc ++ "." ++ "nested4")
    simp only [nested4Chunk] at ih'
    simp [buildReducersCode, nested4Chunk, List.foldl, processStructure,
      containsReducers, findStructure, typeOf, ih']

/-- Whether every selector entry produced at one compiler level is a plain
selector function rather than a nested mapping (`none`, a compilation that
never finished, is vacuously flat). -/
def selectorsAllFlat : Option ReducerBundle → Bool
  | none => true
  | some out =>
    match out.selectorsObject with
    | .fn _ => true
    | .node l => l.all (fun p => match p.2 with | .fn _ => true | .node _ => false)

/-- Once the processStructure fold has failed, it stays failed. -/
theorem foldl_processStructure_none
    (recurse : String → List String → String → Option ReducerBundle)
    (baseSelector : List String) (locationString : String) :
    ∀ (props : List (String × CNode)),
      props.foldl (processStructure recurse baseSelector locationString) none
        = none := by
  intro props
  induction props with
  | nil => rfl
  | cons p rest ih =>
    simp only [List.foldl, processStructure]
    exact ih

/-- Fold invariant behind C4: processStructure only ever appends `SelTree.fn`
selector entries (generateReducer.js:77-80), whatever the child reducer is. -/
theorem foldl_processStructure_selectors_flat
    (recurse : String → List String → String → Option ReducerBundle)
    (baseSelector : List String) (locationString : String) :
    ∀ (props : List (String × CNode)) (rs : List (String × RTree))
      (acts : List (String × ATree)) (sels : List (String × SelTree)),
      sels.all (fun p => match p.2 with | .fn _ => true | .node _ => false) = true →
      ∀ out, props.foldl (processStructure recurse baseSelector locationString)
          (some (rs, acts, sels)) = some out →
        out.2.2.all (fun p => match p.2 with | .fn _ => true | .node _ => false)
          = true := by
  intro props
  induction props with
  | nil =>
    intro rs acts sels hsels out hout
    simp only [List.foldl] at hout
    cases hout
    exact hsels
  | cons p rest ih =>
    intro rs acts sels hsels out hout
    simp only [List.foldl, processStructure] at hout
    by_cases hc : containsReducers p.2
    · rw [if_pos hc] at hout
      cases hrec : recurse p.1 (baseSelector ++ [p.1])
          (locationString ++ "." ++ p.1) with
      | none =>
        rw [hrec, foldl_processStructure_none] at hout
        cases hout
      | some child =>
        rw [hrec] at hout
        refine ih _ _ _ ?_ out hout
        simp only [List.all_append, hsels, List.all_cons, List.all_nil]
        rfl
    · rw [if_neg hc] at hout
      refine ih _ _ _ ?_ out hout
      simp only [List.all_append, hsels, List.all_cons, List.all_nil]
      rfl

/-- C4: every selector entry the compiler actually produces at a level is a
plain selector function.  generateReducer.js:77-80 writes
`state => baseSelector(state)[propName]` into `selectorsObject[propName]`
unconditionally, so no compiled selectors entry is ever a nested mapping —
contradicting the nested-mapping selectors that buildStoreChunk.test.js:72-77
requires for a boundary-containing property. -/
theorem buildReducers_selector_entries_always_functions :
    ∀ (fuel : Nat) (name : String) (struct : List (String × CNode))
      (baseSelector : List String) (locationString : String),
    selectorsAllFlat
      (buildReducersCode fuel name struct baseSelector locationString) = true := by
  intro fuel name struct baseSelector locationString
  cases fuel with
  | zero => rfl
  | succ n =>
    simp only [buildReducersCode]
    cases hfold : struct.foldl
        (processStructure
          (fun propName bs loc => buildReducersCode n propName struct bs loc)
          baseSelector locationString)
        (some ([], [], [])) with
    | none => rfl
    | some acc =>
      have := foldl_processStructure_selectors_flat
        (fun propName bs loc => buildReducersCode n propName struct bs loc)
        baseSelector locationString struct [] [] [] rfl acc hfold
      simp only [selectorsAllFlat]
      obtain ⟨rs, acts, sels⟩ := acc
      exact this

/-!
## Validation engine (claims C5-C8)

validatePayload.js is not under src/ (only its test suite is), so the engine
is modelled from the specification, section 4.2: `validateValue` applies the
validator registered for the structure's type tag (custom validators receive
the raw value, `any` always succeeds), returning the value unchanged on
success and `undefined` on failure; container structures are validated by the
container routines (`validateShape` / `validateArray`); `validateShape`
resolves each input key via `getValueType(structure, key,
hasWildcardKey(structure))`, coercing container-typed children whose value is
not a compatible container to the empty container and omitting keys whose
primitive/custom validation fails; `validateArray` turns non-array input into
`[]` and compacts out elements whose validation yields `undefined`.  Type
tags are a closed enumeration here, so the configuration error for an
unrecognized tag cannot arise.
-/

/-- Validation-engine structure node.  Modelled from the spec: structure.js
is not under src/.  A shape carries its named children in declaration order,
plus the child registered under the wildcard sentinel key, if any (the
sentinel is distinguishable from every real property name, hence a separate
field). -/
inductive SNode where
  | prim (kind : PrimKind) (dflt : Value)
  | custom (validator : Value → Bool) (dflt : Value)
  | shape (children : List (String × SNode)) (wildcard : Option SNode)
  | arrayOf (elem : SNode) (dflt : List Value)

/-- Whether a value is the JavaScript `undefined`. -/
def Value.isUndef : Value → Bool
  | .undef => true
  | _ => false

/-- Whether a value is a plain object. -/
def Value.isObj : Value → Bool
  | .obj _ => true
  | _ => false

/-- Whether a value is an array. -/
def Value.isArr : Value → Bool
  | .arr _ => true
  | _ => false

/-- getTypeValidation: the validator registered for a primitive type tag.
Modelled from the spec: `string`/`number`/`boolean` check the runtime type,
`any` always succeeds.  Unrecognized tags (which throw a configuration error
in the source) cannot be formed in this closed embedding. -/
def getTypeValidation (kind : PrimKind) : Value → Bool :=
  fun v =>
    match kind, v with
    | .string, .str _ => true
    | .number, .num _ => true
    | .boolean, .bool _ => true
    | .any, _ => true
    | _, _ => false

/-- hasWildcardKey(structure): whether a shape declares a wildcard child.
Modelled from the spec (validatePayload.js is not under src/). -/
def hasWildcardKey : SNode → Bool
  | .shape _ wc => wc.isSome
  | _ => false

/-- getValueType(structure, key, hasWildcard): the child structure for a key;
an exact key match wins, otherwise the wildcard child is used when
`hasWildcard` is set, otherwise `none`.  Modelled from the spec
(validatePayload.js is not under src/). -/
def getValueType (s : SNode) (key : String) (hasWildcard : Bool) : Option SNode :=
  match s with
  | .shape children wc =>
    match children.lookup key with
    | some c => some c
    | none => if hasWildcard then wc else none
  | _ => none

/-- Child resolution as the shape engine performs it:
`getValueType(structure, key, hasWildcardKey(structure))`, flattened to the
shape's two components. -/
def resolveChild (children : List (String × SNode)) (wc : Option SNode)
    (key : String) : Option SNode :=
  match children.lookup key with
  | some c => some c
  | none => wc

/-- Child resolution agrees with `getValueType` consulted with
`hasWildcardKey`, the way validateShape calls it. -/
theorem resolveChild_eq_getValueType (children : List (String × SNode))
    (wc : Option SNode) (key : String) :
    resolveChild children wc key
      = getValueType (SNode.shape children wc) key
          (hasWildcardKey (SNode.shape children wc)) := by
  simp only [resolveChild, getValueType, hasWildcardKey]
  cases h : children.lookup key with
  | some c => rfl
  | none => cases wc <;> rfl

mutual
/-- validateValue, modelled from the spec (validatePayload.js is not under
src/): primitive and custom structures apply their validator and return the
value unchanged on success and `undefined` on failure; a shape sanitizes an
object input field by field (any other input has no keys, yielding `{}`); an
array structure sanitizes an array input elementwise (any other input yields
`[]`). -/
def validateValue : SNode → Value → Value
  | .prim kind _, v => if getTypeValidation kind v then v else .undef
  | .custom validator _, v => if validator v then v else .undef
  | .shape children wc, .obj fields => .obj (validateFields children wc fields)
  | .shape _ _, _ => .obj []
  | .arrayOf elem _, .arr elems => .arr (validateElems elem elems)
  | .arrayOf _ _, _ => .arr []

/-- The field loop of validateShape: each input key is resolved against the
shape's children (exact match first, then wildcard); unmatched keys are
stripped, and a matched key is kept unless its validation yields
`undefined`. -/
def validateFields :
    List (String × SNode) → Option SNode → List (String × Value) →
      List (String × Value)
  | _, _, [] => []
  | children, wc, (k, x) :: rest =>
    match resolveChild children wc k with
    | none => validateFields children wc rest
    | some c =>
      let w := validateValue c x
      if w.isUndef then validateFields children wc rest
      else (k, w) :: validateFields children wc rest

/-- The element loop of validateArray: each element is validated against the
element structure and elements whose validation yields `undefined` are
compacted out, preserving the relative order of the survivors. -/
def validateElems : SNode → List Value → List Value
  | _, [] => []
  | elem, x :: rest =>
    let w := validateValue elem x
    if w.isUndef then validateElems elem rest
    else w :: validateElems elem rest
end

/-- validateShape(structure, input), modelled from the spec: for a shape
structure and an object input, sanitize field by field; any other input has
no keys present, so the output is the empty object. -/
def validateShape (s : SNode) (input : Value) : Value :=
  match s, input with
  | .shape children wc, .obj fields => .obj (validateFields children wc fields)
  | _, _ => .obj []

/-- validateArray(structure, input), modelled from the spec: non-array input
yields `[]` (never a throw); an array is validated elementwise against the
element structure, compacting out elements whose validation yields
`undefined`. -/
def validateArray (s : SNode) (input : Value) : Value :=
  match s, input with
  | .arrayOf elem _, .arr elems => .arr (validateElems elem elems)
  | _, _ => .arr []

/-- The field list of an object value (an empty list for any other value). -/
def objFields : Value → List (String × Value)
  | .obj fields => fields
  | _ => []


/-!
## Claim C5: idempotence of validateValue

A value that survived validation once survives it unchanged a second time:
leaf validators return the value itself, and the container routines only
emit fields and elements that already pass their child validation.
-/

/-- Every structure node has positive size. -/
theorem SNode.sizeOf_pos (s : SNode) : 0 < sizeOf s := by
  cases s <;> simp_arith

/-- A successful association-list lookup returns a structurally smaller
node. -/
theorem lookup_sizeOf_lt :
    ∀ {children : List (String × SNode)} {k : String} {c : SNode},
      children.lookup k = some c → sizeOf c < sizeOf children := by
  intro children
  induction children with
  | nil => intro k c h; cases h
  | cons e rest ih =>
    intro k c h
    obtain ⟨k', c'⟩ := e
    simp only [List.lookup] at h
    cases hk : k == k' with
    | true =>
      rw [hk] at h
      injection h with h
      subst h
      simp only [List.cons.sizeOf_spec, Prod.mk.sizeOf_spec]
      omega
    | false =>
      rw [hk] at h
      have hlt := ih h
      simp only [List.cons.sizeOf_spec, Prod.mk.sizeOf_spec]
      omega

/-- A resolved child (exact match or wildcard) is structurally smaller than
the shape that contains it. -/
theorem resolveChild_sizeOf {children : List (String × SNode)} {wc : Option SNode}
    {k : String} {c : SNode} (h : resolveChild children wc k = some c) :
    sizeOf c < 1 + sizeOf children + sizeOf wc := by
  unfold resolveChild at h
  cases hl : children.lookup k with
  | some c' =>
    rw [hl] at h
    injection h with h
    subst h
    have := lookup_sizeOf_lt hl
    omega
  | none =>
    rw [hl] at h
    cases wc with
    | none => cases h
    | some c' =>
      injection h with h
      subst h
      simp only [Option.some.sizeOf_spec]
      omega

/-- Element sanitization is idempotent once element validation is. -/
theorem validateElems_idem (elem : SNode)
    (hfix : ∀ v, validateValue elem (validateValue elem v) = validateValue elem v) :
    ∀ l, validateElems elem (validateElems elem l) = validateElems elem l := by
  intro l
  induction l with
  | nil => rfl
  | cons x rest ih =>
    simp only [validateElems]
    by_cases hw : (validateValue elem x).isUndef = true
    · rw [if_pos hw, ih]
    · rw [if_neg hw]
      simp only [validateElems]
      rw [hfix x, if_neg hw, ih]

/-- Field sanitization is idempotent once validation of every resolvable
child is. -/
theorem validateFields_idem (children : List (String × SNode)) (wc : Option SNode)
    (hfix : ∀ k c, resolveChild children wc k = some c →
      ∀ v, validateValue c (validateValue c v) = validateValue c v) :
    ∀ fs, validateFields children wc (validateFields children wc fs)
        = validateFields children wc fs := by
  intro fs
  induction fs with
  | nil => rfl
  | cons e rest ih =>
    obtain ⟨k, x⟩ := e
    cases hres : resolveChild children wc k with
    | none =>
      simp only [validateFields, hres]
      exact ih
    | some c =>
      by_cases hw : (validateValue c x).isUndef = true
      · simp only [validateFields, hres, hw, if_true]
        exact ih
      · rw [Bool.not_eq_true] at hw
        simp [validateFields, hres, hw, hfix k c hres x, ih]

/-- Strong-induction core of C5, by the size of the structure node. -/
theorem validateValue_fix_aux :
    ∀ (n : Nat) (s : SNode) (v : Value), sizeOf s ≤ n →
      validateValue s (validateValue s v) = validateValue s v := by
  intro n
  induction n with
  | zero =>
    intro s v hs
    exact absurd hs (by have := SNode.sizeOf_pos s; omega)
  | succ n ih =>
    intro s v hs
    cases s with
    | prim kind d =>
      simp only [validateValue]
      by_cases hval : getTypeValidation kind v = true
      · rw [if_pos hval, if_pos hval]
      · rw [if_neg hval]
        exact ite_self _
    | custom f d =>
      simp only [validateValue]
      by_cases hval : f v = true
      · rw [if_pos hval, if_pos hval]
      · rw [if_neg hval]
        exact ite_self _
    | shape children wc =>
      have hsz : 1 + sizeOf children + sizeOf wc ≤ n + 1 := by simpa using hs
      have hch : ∀ k c, resolveChild children wc k = some c →
          ∀ w, validateValue c (validateValue c w) = validateValue c w := by
        intro k c hres w
        have hlt := resolveChild_sizeOf hres
        exact ih c w (by omega)
      cases v with
      | obj fields =>
        simp only [validateValue]
        rw [validateFields_idem children wc hch]
      | str a => rfl
      | num a => rfl
      | bool a => rfl
      | undef => rfl
      | arr l => rfl
    | arrayOf elem d =>
      have hsz : 1 + sizeOf elem + sizeOf d ≤ n + 1 := by simpa using hs
      have he : ∀ w, validateValue elem (validateValue elem w)
          = validateValue elem w := by
        intro w
        exact ih elem w (by omega)
      cases v with
      | arr l =>
        simp only [validateValue]
        rw [validateElems_idem elem he]
      | str a => rfl
      | num a => rfl
      | bool a => rfl
      | undef => rfl
      | obj fields => rfl

/-- C5: validateValue is idempotent — for every structure S and every value
V, validating the result of validation changes nothing:
validateValue(S, validateValue(S, V)) equals validateValue(S, V). -/
theorem validateValue_idempotent (S : SNode) (V : Value) :
    validateValue S (validateValue S V) = validateValue S V :=
  validateValue_fix_aux (sizeOf S) S V le_rfl

/-!
## Claim C6: totality and filtering of validateArray
-/

/-- Element sanitization is elementwise validation followed by compaction of
the `undefined` results, preserving relative order. -/
theorem validateElems_eq_filter_map (elem : SNode) :
    ∀ l, validateElems elem l
      = (l.map (validateValue elem)).filter (fun w => !w.isUndef) := by
  intro l
  induction l with
  | nil => rfl
  | cons x rest ih =>
    by_cases hw : (validateValue elem x).isUndef = true
    · simp [validateElems, hw, ih, List.filter_cons]
    · rw [Bool.not_eq_true] at hw
      simp [validateElems, hw, ih, List.filter_cons]

/-- C6: validateArray is total and never throws.  Its result is always an
array; when the input is not an array the result is the empty array; and
when the input is an array the result holds exactly the validated elements
whose validation did not yield `undefined`, in their original relative
order. -/
theorem validateArray_total (elem : SNode) (dflt : List Value) (X : Value) :
    (∃ l, validateArray (SNode.arrayOf elem dflt) X = Value.arr l) ∧
    (X.isArr = false → validateArray (SNode.arrayOf elem dflt) X = Value.arr []) ∧
    (∀ l, X = Value.arr l →
      validateArray (SNode.arrayOf elem dflt) X
        = Value.arr ((l.map (validateValue elem)).filter (fun w => !w.isUndef))) := by
  refine ⟨?_, ?_, ?_⟩
  · cases X <;> exact ⟨_, rfl⟩
  · intro hX
    cases X with
    | arr l => simp [Value.isArr] at hX
    | str a => rfl
    | num a => rfl
    | bool a => rfl
    | undef => rfl
    | obj f => rfl
  · intro l hl
    subst hl
    simp only [validateArray]
    rw [validateElems_eq_filter_map]

/-- C6 witness: a concrete non-array input yields `[]`, and a concrete array
keeps exactly the passing strings, in order, dropping the failing number. -/
theorem validateArray_total_witness :
    validateArray (SNode.arrayOf (SNode.prim PrimKind.string (Value.str "")) [])
        (Value.str "foo") = Value.arr [] ∧
    validateArray (SNode.arrayOf (SNode.prim PrimKind.string (Value.str "")) [])
        (Value.arr [Value.str "a", Value.num 3, Value.str "d"])
      = Value.arr [Value.str "a", Value.str "d"] := by
  constructor
  · exact (validateArray_total (SNode.prim PrimKind.string (Value.str "")) []
      (Value.str "foo")).2.1 rfl
  · exact ((validateArray_total (SNode.prim PrimKind.string (Value.str "")) []
      (Value.arr [Value.str "a", Value.num 3, Value.str "d"])).2.2
      [Value.str "a", Value.num 3, Value.str "d"] rfl).trans rfl

/-!
## Claims C7 and C8: validateShape key treatment
-/

/-- Whether a structure node is a primitive or custom leaf. -/
def isLeafNode : SNode → Bool
  | .prim _ _ => true
  | .custom _ _ => true
  | _ => false

/-- Validating a non-object value against a shape structure yields the empty
object: the container coercion of the engine. -/
theorem validateValue_shape_nonobj (ch' : List (String × SNode))
    (wc' : Option SNode) (v : Value) (hv : v.isObj = false) :
    validateValue (SNode.shape ch' wc') v = Value.obj [] := by
  cases v <;> first | rfl | simp [Value.isObj] at hv

/-- Validating a non-array value against an array structure yields the empty
array: the container coercion of the engine. -/
theorem validateValue_array_nonarr (e : SNode) (d : List Value)
    (v : Value) (hv : v.isArr = false) :
    validateValue (SNode.arrayOf e d) v = Value.arr [] := by
  cases v <;> first | rfl | simp [Value.isArr] at hv

/-- Every key of the sanitized field list already occurs among the input
keys: validation never invents keys. -/
theorem validateFields_keys_sub (children : List (String × SNode))
    (wc : Option SNode) :
    ∀ (fs : List (String × Value)) (p : String × Value),
      p ∈ validateFields children wc fs → p.1 ∈ fs.map Prod.fst := by
  intro fs
  induction fs with
  | nil => intro p hp; cases hp
  | cons e rest ih =>
    obtain ⟨k, x⟩ := e
    intro p hp
    cases hres : resolveChild children wc k with
    | none =>
      simp only [validateFields, hres] at hp
      have := ih p hp
      simp [this]
    | some c =>
      by_cases hw : (validateValue c x).isUndef = true
      · simp only [validateFields, hres, hw, if_true] at hp
        have := ih p hp
        simp [this]
      · rw [Bool.not_eq_true] at hw
        simp [validateFields, hres, hw] at hp
        rcases hp with rfl | hp
        · simp
        · have := ih p hp
          simp [this]

/-- A field list none of whose entries bears key `k` looks up `k` to
nothing. -/
theorem lookup_none_of_keys_ne (k : String) :
    ∀ (l : List (String × Value)), (∀ p ∈ l, p.1 ≠ k) → l.lookup k = none := by
  intro l
  induction l with
  | nil => intro _; rfl
  | cons e rest ih =>
    obtain ⟨k', w⟩ := e
    intro h
    have hk : k' ≠ k := h (k', w) (by simp)
    have hkk : (k == k') = false := beq_eq_false_iff_ne.mpr (Ne.symm hk)
    simp only [List.lookup, hkk]
    exact ih (fun p hp => h p (by simp [hp]))

/-- When child resolution fails for `k`, no occurrence of `k` survives
sanitization. -/
theorem validateFields_drops_unresolved (children : List (String × SNode))
    (wc : Option SNode) (k : String)
    (h : resolveChild children wc k = none) :
    ∀ fs, (validateFields children wc fs).lookup k = none := by
  intro fs
  induction fs with
  | nil => rfl
  | cons e rest ih =>
    obtain ⟨k', x⟩ := e
    cases hres : resolveChild children wc k' with
    | none => simp only [validateFields, hres]; exact ih
    | some c' =>
      by_cases hw : (validateValue c' x).isUndef = true
      · simp only [validateFields, hres, hw, if_true]; exact ih
      · rw [Bool.not_eq_true] at hw
        have hkk : (k == k') = false := by
          rcases eq_or_ne k k' with rfl | hne
          · rw [h] at hres; cases hres
          · exact beq_eq_false_iff_ne.mpr hne
        simp only [validateFields, hres, hw, Bool.false_eq_true, if_false,
          List.lookup, hkk]
        exact ih

/-- C7: for a matched container child whose input value is not a compatible
container, validateShape maps the key to the child's empty default container
(`{}` for a shape child, `[]` for an array child); for a matched primitive or
custom child whose value fails validation, the key is omitted from the output
entirely. -/
theorem validateShape_container_coercion_and_leaf_drop :
    ∀ (children : List (String × SNode)) (wc : Option SNode)
      (fs : List (String × Value)) (k : String) (v : Value) (c : SNode),
      (fs.map Prod.fst).Nodup →
      resolveChild children wc k = some c →
      fs.lookup k = some v →
      ((∀ ch' wc', c = SNode.shape ch' wc' → v.isObj = false →
          (objFields (validateShape (SNode.shape children wc) (Value.obj fs))).lookup k
            = some (Value.obj [])) ∧
       (∀ e d, c = SNode.arrayOf e d → v.isArr = false →
          (objFields (validateShape (SNode.shape children wc) (Value.obj fs))).lookup k
            = some (Value.arr [])) ∧
       (isLeafNode c = true → validateValue c v = Value.undef →
          (objFields (validateShape (SNode.shape children wc) (Value.obj fs))).lookup k
            = none)) := by
  intro children wc fs
  induction fs with
  | nil =>
    intro k v c _ _ hlk
    cases hlk
  | cons e rest ih =>
    intro k v c hnd hres hlk
    obtain ⟨k', x⟩ := e
    simp only [validateShape, objFields] at *
    cases hkk : k == k' with
    | true =>
      have hk : k = k' := by simpa using hkk
      subst hk
      have hv : x = v := by simpa [List.lookup] using hlk
      subst hv
      have hkeys : ¬ k ∈ rest.map Prod.fst := by
        simp only [List.map_cons] at hnd
        exact (List.nodup_cons.mp hnd).1
      refine ⟨?_, ?_, ?_⟩
      · intro ch' wc' hc hvo
        subst hc
        have hval := validateValue_shape_nonobj ch' wc' x hvo
        simp [validateFields, hres, hval, Value.isUndef, List.lookup]
      · intro e d hc hva
        subst hc
        have hval := validateValue_array_nonarr e d x hva
        simp [validateFields, hres, hval, Value.isUndef, List.lookup]
      · intro _ hfail
        simp only [validateFields, hres, hfail, Value.isUndef, if_true]
        apply lookup_none_of_keys_ne
        intro p hp hpk
        have hmem := validateFields_keys_sub children wc rest _ hp
        rw [hpk] at hmem
        exact hkeys hmem
    | false =>
      have hne : k ≠ k' := by simpa using hkk
      have hlk' : rest.lookup k = some v := by
        simpa [List.lookup, hkk] using hlk
      have hnd' : (rest.map Prod.fst).Nodup := by
        simp only [List.map_cons] at hnd
        exact (List.nodup_cons.mp hnd).2
      have ihh := ih k v c hnd' hres hlk'
      have hstep : (validateFields children wc ((k', x) :: rest)).lookup k
          = (validateFields children wc rest).lookup k := by
        cases hres' : resolveChild children wc k' with
        | none => simp only [validateFields, hres']
        | some c' =>
          by_cases hw : (validateValue c' x).isUndef = true
          · simp only [validateFields, hres', hw, if_true]
          · rw [Bool.not_eq_true] at hw
            simp only [validateFields, hres', hw, Bool.false_eq_true, if_false,
              List.lookup, hkk]
      refine ⟨?_, ?_, ?_⟩
      · intro ch' wc' hc hvo
        rw [hstep]
        exact ihh.1 ch' wc' hc hvo
      · intro e d hc hva
        rw [hstep]
        exact ihh.2.1 e d hc hva
      · intro hleaf hfail
        rw [hstep]
        exact ihh.2.2 hleaf hfail

/-- C7 witness: the nested-shape scenario of validatePayload.test.js:127-140
(a string supplied where a nested shape was declared is coerced to `{}`),
and a failing primitive child whose key is dropped. -/
theorem validateShape_container_coercion_and_leaf_drop_witness :
    (objFields (validateShape
        (SNode.shape
          [("test1", SNode.shape [("test2", SNode.prim PrimKind.string (Value.str ""))] none),
           ("test2", SNode.prim PrimKind.string (Value.str ""))] none)
        (Value.obj [("test1", Value.str "foo"), ("test2", Value.str "bar")]))).lookup "test1"
      = some (Value.obj []) ∧
    (objFields (validateShape
        (SNode.shape [("test2", SNode.prim PrimKind.number (Value.num 0))] none)
        (Value.obj [("test2", Value.str "no")]))).lookup "test2" = none := by
  constructor
  · exact (validateShape_container_coercion_and_leaf_drop
      [("test1", SNode.shape [("test2", SNode.prim PrimKind.string (Value.str ""))] none),
       ("test2", SNode.prim PrimKind.string (Value.str ""))] none
      [("test1", Value.str "foo"), ("test2", Value.str "bar")]
      "test1" (Value.str "foo")
      (SNode.shape [("test2", SNode.prim PrimKind.string (Value.str ""))] none)
      (by decide) rfl rfl).1
      [("test2", SNode.prim PrimKind.string (Value.str ""))] none rfl rfl
  · exact (validateShape_container_coercion_and_leaf_drop
      [("test2", SNode.prim PrimKind.number (Value.num 0))] none
      [("test2", Value.str "no")] "test2" (Value.str "no")
      (SNode.prim PrimKind.number (Value.num 0))
      (by decide) rfl rfl).2.2 rfl rfl

/-- C8: exact key matches take precedence over the wildcard child; the
wildcard child is consulted only when no exact match exists; a key matching
neither is stripped from the output; and the output keys are a subset of the
input keys — validation never invents keys. -/
theorem validateShape_wildcard_precedence_and_keys
    (children : List (String × SNode)) (wc : Option SNode) (k : String)
    (fs : List (String × Value)) :
    (∀ c, children.lookup k = some c →
      getValueType (SNode.shape children wc) k
        (hasWildcardKey (SNode.shape children wc)) = some c) ∧
    (children.lookup k = none →
      getValueType (SNode.shape children wc) k
        (hasWildcardKey (SNode.shape children wc)) = wc) ∧
    (getValueType (SNode.shape children wc) k
        (hasWildcardKey (SNode.shape children wc)) = none →
      (objFields (validateShape (SNode.shape children wc) (Value.obj fs))).lookup k
        = none) ∧
    (∀ p, p ∈ objFields (validateShape (SNode.shape children wc) (Value.obj fs)) →
      p.1 ∈ fs.map Prod.fst) := by
  refine ⟨?_, ?_, ?_, ?_⟩
  · intro c hl
    rw [← resolveChild_eq_getValueType]
    simp only [resolveChild, hl]
  · intro hl
    rw [← resolveChild_eq_getValueType]
    simp only [resolveChild, hl]
  · intro hres
    rw [← resolveChild_eq_getValueType] at hres
    simp only [validateShape, objFields]
    exact validateFields_drops_unresolved children wc k hres fs
  · intro p hp
    simp only [validateShape, objFields] at hp
    exact validateFields_keys_sub children wc fs p hp

/-- C8 witness: with a declared `test2` child and a wildcard child, the
exact child answers for `test2`, the wildcard answers for the undeclared
`test1`; without a wildcard, an undeclared key is stripped from the
output. -/
theorem validateShape_wildcard_precedence_and_keys_witness :
    getValueType
        (SNode.shape [("test2", SNode.prim PrimKind.string (Value.str ""))]
          (some (SNode.prim PrimKind.any Value.undef)))
        "test2"
        (hasWildcardKey (SNode.shape [("test2", SNode.prim PrimKind.string (Value.str ""))]
          (some (SNode.prim PrimKind.any Value.undef))))
      = some (SNode.prim PrimKind.string (Value.str "")) ∧
    getValueType
        (SNode.shape [("test2", SNode.prim PrimKind.string (Value.str ""))]
          (some (SNode.prim PrimKind.any Value.undef)))
        "test1"
        (hasWildcardKey (SNode.shape [("test2", SNode.prim PrimKind.string (Value.str ""))]
          (some (SNode.prim PrimKind.any Value.undef))))
      = some (SNode.prim PrimKind.any Value.undef) ∧
    (objFields (validateShape
        (SNode.shape [("test2", SNode.prim PrimKind.string (Value.str ""))] none)
        (Value.obj [("toast", Value.str "bar")]))).lookup "toast" = none := by
  refine ⟨?_, ?_, ?_⟩
  · exact (validateShape_wildcard_precedence_and_keys
      [("test2", SNode.prim PrimKind.string (Value.str ""))]
      (some (SNode.prim PrimKind.any Value.undef)) "test2" []).1
      (SNode.prim PrimKind.string (Value.str "")) rfl
  · exact (validateShape_wildcard_precedence_and_keys
      [("test2", SNode.prim PrimKind.string (Value.str ""))]
      (some (SNode.prim PrimKind.any Value.undef)) "test1" []).2.1 rfl
  · exact (validateShape_wildcard_precedence_and_keys
      [("test2", SNode.prim PrimKind.string (Value.str ""))] none "toast"
      [("toast", Value.str "bar")]).2.2.1 rfl

/-!
## Claim C9: combined (batch) actions

reducers.js and reducers/batchUpdates.js are not under src/ (only
buildStoreChunk.test.js exercises them), so the batch contract is modelled
from the specification, section 4.4: `createCombinedAction({name, actions})`
packages an ordered sequence of already-constructed atomic actions into one
action tagged with a batch kind and a descriptive label; every compiled leaf
reducer, on receiving a batch, filters the embedded sequence to the subset
addressed to its own slice (by action-type/location match) and applies those
entries in the given order, each producing the intermediate state consumed by
the next; an atomic action is applied when addressed to the slice and leaves
the state untouched otherwise.
-/

/-- An atomic action on the wire: `{type, payload}`, plus the `index` field
carried by array-removal actions.  Modelled from the spec (section 6). -/
structure JsAction where
  type : String
  payload : Value
  index : Option Int

/-- A dispatched unit: an ordinary atomic action, or a combined action
carrying its label and the ordered embedded sequence. -/
inductive DispatchedAction where
  | atomic (a : JsAction)
  | batch (name : String) (actions : List JsAction)

/-- createCombinedAction({name, actions}): one action object tagged with the
batch kind; the label is descriptive only.  Modelled from the spec
(reducers/batchUpdates.js is not under src/). -/
def createCombinedAction (name : String) (actions : List JsAction) :
    DispatchedAction :=
  .batch name actions

/-- A compiled leaf reducer, as the batch contract sees it: `handles` is the
action-type/location match deciding whether an atomic action is addressed to
this slice, and `applyA` is the slice's transition for addressed actions.
Modelled from the spec (reducers.js is not under src/). -/
structure LeafReducer where
  handles : JsAction → Bool
  applyA : Value → JsAction → Value

/-- One leaf's reaction to a dispatched unit: an atomic action is applied
when addressed to this slice and ignored otherwise; a batch is filtered to
the subsequence addressed to this slice and folded left to right, each
result feeding the next entry. -/
def leafReduce (r : LeafReducer) (s : Value) : DispatchedAction → Value
  | .atomic a => if r.handles a then r.applyA s a else s
  | .batch _ l => (l.filter r.handles).foldl r.applyA s

/-- The combined store over a list of leaf reducers: a dispatch lets every
leaf react to the action on its own slice of the state list. -/
def dispatch (rs : List LeafReducer) (ss : List Value) (d : DispatchedAction) :
    List Value :=
  List.zipWith (fun r s => leafReduce r s d) rs ss

/-- Folding the addressed subsequence equals folding the whole sequence with
unaddressed entries skipped. -/
theorem filter_foldl_eq (r : LeafReducer) :
    ∀ (l : List JsAction) (s : Value),
      (l.filter r.handles).foldl r.applyA s
        = l.foldl (fun s a => if r.handles a then r.applyA s a else s) s := by
  intro l
  induction l with
  | nil => intro s; rfl
  | cons a rest ih =>
    intro s
    by_cases h : r.handles a = true
    · simp [List.filter_cons, h, ih]
    · rw [Bool.not_eq_true] at h
      simp [List.filter_cons, h, ih]

/-- C9: dispatching `createCombinedAction({actions: [A, B, C]})` produces
exactly the final state of dispatching A, then B, then C as three separate
ordinary dispatches — for every store built from leaf reducers and every
starting state; each leaf applies the batch entries addressed to it in the
given order, each producing the intermediate state consumed by the next. -/
theorem createCombinedAction_equals_sequential_dispatch
    (rs : List LeafReducer) (ss : List Value) (name : String)
    (A B C : JsAction) :
    dispatch rs ss (createCombinedAction name [A, B, C])
      = dispatch rs
          (dispatch rs (dispatch rs ss (.atomic A)) (.atomic B))
          (.atomic C) := by
  induction rs generalizing ss with
  | nil => rfl
  | cons r rest ih =>
    cases ss with
    | nil => rfl
    | cons s stail =>
      have hhead : leafReduce r s (DispatchedAction.batch name [A, B, C])
          = leafReduce r
              (leafReduce r (leafReduce r s (.atomic A)) (.atomic B))
              (.atomic C) := by
        simp only [leafReduce]
        rw [filter_foldl_eq]
        rfl
      exact congrArg₂ List.cons hhead (ih stail)

/-!
## Claim C10: resetAll scope and sibling isolation

reducers.js and buildStoreChunk.js are not under src/, so the resetAll
machinery is modelled from the specification: every reducer boundary carries
a resetAll action scoped to that boundary's locationString; locations are
dot-joined paths (a child named n below location loc lives at
`loc ++ "." ++ n`), action types are derived from them, and a leaf reducer
recognizes a resetAll exactly when its own location is the boundary's
location or lies below it past a dot.  Locations are modelled as character
lists.  Property names contain no dot — the dot is the path separator the
deterministic action-type naming relies on.
-/

/-- The leaf-default tree compiled under one reducer boundary: a leaf
carries its declared default value, a branch carries named children. -/
inductive DefTree where
  | leaf (dflt : Value)
  | node (children : List (List Char × DefTree))

mutual
/-- All leaves transitively under a location, each with its dot-joined
location. -/
def collectLeaves : List Char → DefTree → List (List Char × Value)
  | loc, .leaf d => [(loc, d)]
  | loc, .node ch => collectLeavesList loc ch

/-- collectLeaves over a branch's named children, in declaration order. -/
def collectLeavesList :
    List Char → List (List Char × DefTree) → List (List Char × Value)
  | _, [] => []
  | loc, (n, t) :: rest =>
    collectLeaves (loc ++ '.' :: n) t ++ collectLeavesList loc rest
end

/-- Whether the location `l` begins with the location `pat`. -/
def locStarts : List Char → List Char → Bool
  | [], _ => true
  | _ :: _, [] => false
  | a :: as, b :: bs => a == b && locStarts as bs

/-- Whether the leaf at `lloc` lies under the boundary at `bloc`: it is the
boundary location itself, or the boundary location extended below a dot.
This is the action-type/location match by which a leaf reducer recognizes a
resetAll scoped to `bloc`. -/
def underBoundary (bloc lloc : List Char) : Bool :=
  bloc == lloc || locStarts (bloc ++ ['.']) lloc

/-- Dispatching a boundary's resetAll across the store's leaves: every leaf
reducer whose location matches the scope returns its declared default, every
other leaf returns its current value unchanged. -/
def applyResetAll (bloc : List Char) (leaves : List (List Char × Value))
    (current : List Value) : List Value :=
  List.zipWith (fun p c => if underBoundary bloc p.1 then p.2 else c)
    leaves current

mutual
/-- Every collected leaf location is the boundary location itself or extends
it below a dot. -/
theorem collectLeaves_loc_shape (t : DefTree) (loc : List Char)
    (p : List Char × Value) (hp : p ∈ collectLeaves loc t) :
    p.1 = loc ∨ ∃ r, p.1 = loc ++ '.' :: r := by
  cases t with
  | leaf d =>
    simp only [collectLeaves] at hp
    left
    rw [List.mem_singleton.mp hp]
  | node ch => exact collectLeavesList_loc_shape ch loc p hp

/-- Location shape of leaves collected under a branch's children. -/
theorem collectLeavesList_loc_shape (ch : List (List Char × DefTree))
    (loc : List Char) (p : List Char × Value)
    (hp : p ∈ collectLeavesList loc ch) :
    p.1 = loc ∨ ∃ r, p.1 = loc ++ '.' :: r := by
  cases ch with
  | nil => cases hp
  | cons e rest =>
    obtain ⟨n, t⟩ := e
    simp only [collectLeavesList] at hp
    rcases List.mem_append.mp hp with hp | hp
    · rcases collectLeaves_loc_shape t (loc ++ '.' :: n) p hp with h | ⟨r, h⟩
      · right
        exact ⟨n, h⟩
      · right
        refine ⟨n ++ '.' :: r, ?_⟩
        rw [h, List.append_assoc, List.cons_append]
    · exact collectLeavesList_loc_shape rest loc p hp
end

/-- A dot-free name followed by nothing or a dot never equals a different
dot-free name followed by a dot: the dot separator discriminates sibling
paths, even when one name is a proper beginning of the other. -/
theorem dotfree_discrim :
    ∀ (nx ny ext q : List Char), '.' ∉ nx → '.' ∉ ny → nx ≠ ny →
      (ext = [] ∨ ∃ r, ext = '.' :: r) →
      ny ++ ext = nx ++ '.' :: q → False := by
  intro nx
  induction nx with
  | nil =>
    intro ny ext q _ hy hne _ heq
    cases ny with
    | nil => exact hne rfl
    | cons b bs =>
      simp only [List.nil_append, List.cons_append] at heq
      injection heq with h1 _
      subst h1
      exact hy (List.mem_cons_self _ _)
  | cons a as ih =>
    intro ny ext q hx hy hne hext heq
    cases ny with
    | nil =>
      simp only [List.nil_append, List.cons_append] at heq
      rcases hext with rfl | ⟨r, rfl⟩
      · cases heq
      · injection heq with h1 _
        subst h1
        exact hx (List.mem_cons_self _ _)
    | cons b bs =>
      simp only [List.cons_append] at heq
      injection heq with h1 h2
      subst h1
      have hx' : ('.' : Char) ∉ as := fun h => hx (List.mem_cons_of_mem _ h)
      have hy' : ('.' : Char) ∉ bs := fun h => hy (List.mem_cons_of_mem _ h)
      have hne' : as ≠ bs := fun h => hne (by rw [h])
      exact ih bs ext q hx' hy' hne' hext h2

/-- A dot-free name does not equal a different name extended by nothing or a
dot. -/
theorem dotfree_append_discrim (nx ny : List Char) (hx : ('.' : Char) ∉ nx)
    (hne : nx ≠ ny) (ext : List Char)
    (hext : ext = [] ∨ ∃ r, ext = '.' :: r)
    (heq : nx = ny ++ ext) : False := by
  rcases hext with rfl | ⟨r, rfl⟩
  · exact hne (by simpa using heq)
  · apply hx
    rw [heq]
    exact List.mem_append.mpr (Or.inr (List.mem_cons_self _ _))

/-- locStarts decides list-beginning. -/
theorem locStarts_iff : ∀ (a b : List Char),
    locStarts a b = true ↔ ∃ t, a ++ t = b := by
  intro a
  induction a with
  | nil =>
    intro b
    constructor
    · intro _
      exact ⟨b, rfl⟩
    · intro _
      rfl
  | cons x as ih =>
    intro b
    cases b with
    | nil =>
      constructor
      · intro h
        simp [locStarts] at h
      · rintro ⟨t, ht⟩
        cases ht
    | cons y bs =>
      simp only [locStarts, Bool.and_eq_true, beq_iff_eq]
      constructor
      · rintro ⟨rfl, h⟩
        rcases (ih bs).mp h with ⟨t, rfl⟩
        exact ⟨t, rfl⟩
      · rintro ⟨t, ht⟩
        simp only [List.cons_append] at ht
        injection ht with h1 h2
        exact ⟨h1, (ih bs).mpr ⟨t, h2⟩⟩

/-- A location begins with itself. -/
theorem locStarts_append (a b : List Char) : locStarts a (a ++ b) = true :=
  (locStarts_iff a (a ++ b)).mpr ⟨b, rfl⟩

/-- Leaves all under the boundary are reset to their defaults. -/
theorem zipWith_reset_all_under (bloc : List Char) :
    ∀ (leaves : List (List Char × Value)) (cs : List Value),
      (∀ p ∈ leaves, underBoundary bloc p.1 = true) →
      leaves.length = cs.length →
      List.zipWith (fun p c => if underBoundary bloc p.1 then p.2 else c)
          leaves cs
        = leaves.map Prod.snd := by
  intro leaves
  induction leaves with
  | nil => intro cs _ _; rfl
  | cons p rest ih =>
    intro cs hall hlen
    cases cs with
    | nil => simp at hlen
    | cons c cst =>
      simp only [List.zipWith, List.map]
      rw [if_pos (hall p (List.mem_cons_self _ _)),
        ih cst (fun q hq => hall q (List.mem_cons_of_mem _ hq))
          (by simpa using hlen)]

/-- Leaves all outside the boundary keep their current values. -/
theorem zipWith_reset_none (bloc : List Char) :
    ∀ (leaves : List (List Char × Value)) (cs : List Value),
      (∀ p ∈ leaves, underBoundary bloc p.1 = false) →
      leaves.length = cs.length →
      List.zipWith (fun p c => if underBoundary bloc p.1 then p.2 else c)
          leaves cs
        = cs := by
  intro leaves
  induction leaves with
  | nil =>
    intro cs _ hlen
    cases cs with
    | nil => rfl
    | cons c cst => simp at hlen
  | cons p rest ih =>
    intro cs hall hlen
    cases cs with
    | nil => simp at hlen
    | cons c cst =>
      simp only [List.zipWith]
      have h0 := hall p (List.mem_cons_self _ _)
      rw [if_neg (by simp [h0]),
        ih cst (fun q hq => hall q (List.mem_cons_of_mem _ hq))
          (by simpa using hlen)]

/-- C10: for sibling boundaries X and Y below a common parent location — two
distinct dot-free property names — dispatching X's resetAll sets every leaf
transitively nested under X to that leaf's declared default value and leaves
every leaf of the sibling boundary Y (a different locationString) completely
unchanged. -/
theorem resetAll_resets_subtree_preserves_siblings
    (P nx ny : List Char) (TX TY : DefTree) (csX csY : List Value)
    (hx : ('.' : Char) ∉ nx) (hy : ('.' : Char) ∉ ny) (hne : nx ≠ ny)
    (hlenX : (collectLeaves (P ++ '.' :: nx) TX).length = csX.length)
    (hlenY : (collectLeaves (P ++ '.' :: ny) TY).length = csY.length) :
    applyResetAll (P ++ '.' :: nx)
        (collectLeaves (P ++ '.' :: nx) TX ++ collectLeaves (P ++ '.' :: ny) TY)
        (csX ++ csY)
      = (collectLeaves (P ++ '.' :: nx) TX).map Prod.snd ++ csY := by
  have hunder : ∀ p ∈ collectLeaves (P ++ '.' :: nx) TX,
      underBoundary (P ++ '.' :: nx) p.1 = true := by
    intro p hp
    rcases collectLeaves_loc_shape TX (P ++ '.' :: nx) p hp with h | ⟨r, h⟩
    · unfold underBoundary
      rw [h, beq_self_eq_true, Bool.true_or]
    · have hls : locStarts ((P ++ '.' :: nx) ++ ['.']) p.1 = true := by
        have hassoc : p.1 = ((P ++ '.' :: nx) ++ ['.']) ++ r := by
          rw [h]
          simp
        rw [hassoc]
        exact locStarts_append _ _
      unfold underBoundary
      rw [hls, Bool.or_true]
  have houtside : ∀ p ∈ collectLeaves (P ++ '.' :: ny) TY,
      underBoundary (P ++ '.' :: nx) p.1 = false := by
    intro p hp
    have hp1 : ∃ ext, (ext = [] ∨ ∃ r, ext = '.' :: r) ∧
        p.1 = P ++ '.' :: (ny ++ ext) := by
      rcases collectLeaves_loc_shape TY (P ++ '.' :: ny) p hp with h | ⟨r, h⟩
      · exact ⟨[], Or.inl rfl, by simp [h]⟩
      · exact ⟨'.' :: r, Or.inr ⟨r, rfl⟩, by simp [h]⟩
    obtain ⟨ext, hext, hp1⟩ := hp1
    have hbe : (((P ++ '.' :: nx) : List Char) == p.1) = false := by
      apply beq_eq_false_iff_ne.mpr
      rw [hp1]
      intro hEq
      have hEq' : ('.' :: nx : List Char) = '.' :: (ny ++ ext) :=
        List.append_cancel_left hEq
      injection hEq' with _ hEq''
      exact dotfree_append_discrim nx ny hx hne ext hext hEq''
    have hls : locStarts ((P ++ '.' :: nx) ++ ['.']) p.1 = false := by
      cases hb : locStarts ((P ++ '.' :: nx) ++ ['.']) p.1 with
      | false => rfl
      | true =>
        exfalso
        obtain ⟨t, ht⟩ := (locStarts_iff _ _).mp hb
        rw [hp1] at ht
        have ht' : P ++ '.' :: (nx ++ '.' :: t) = P ++ '.' :: (ny ++ ext) := by
          rw [← ht]
          simp
        have ht'' := List.append_cancel_left ht'
        injection ht'' with _ ht3
        exact dotfree_discrim nx ny ext t hx hy hne hext ht3.symm
    unfold underBoundary
    rw [hbe, hls]
    rfl
  unfold applyResetAll
  rw [List.zipWith_append _ _ _ _ _ hlenX,
    zipWith_reset_all_under (P ++ '.' :: nx) _ csX hunder hlenX,
    zipWith_reset_none (P ++ '.' :: nx) _ csY houtside hlenY]

/-- C10 witness: with sibling boundaries named `x` and `x2` below the parent
location `app` — one name a beginning of the other — resetAll on `app.x`
restores both of its leaves to their defaults and leaves the `app.x2` leaf's
current value intact. -/
theorem resetAll_resets_subtree_preserves_siblings_witness :
    applyResetAll (['a','p','p'] ++ '.' :: ['x'])
        (collectLeaves (['a','p','p'] ++ '.' :: ['x'])
            (DefTree.node [(['f'], DefTree.leaf (Value.num 0)),
                           (['g'], DefTree.leaf (Value.str ""))])
          ++ collectLeaves (['a','p','p'] ++ '.' :: ['x','2'])
              (DefTree.leaf (Value.num 7)))
        ([Value.num 5, Value.str "boop"] ++ [Value.num 9])
      = [Value.num 0, Value.str "", Value.num 9] :=
  (resetAll_resets_subtree_preserves_siblings ['a','p','p'] ['x'] ['x','2']
      (DefTree.node [(['f'], DefTree.leaf (Value.num 0)),
                     (['g'], DefTree.leaf (Value.str ""))])
      (DefTree.leaf (Value.num 7))
      [Value.num 5, Value.str "boop"] [Value.num 9]
      (by decide) (by decide) (by decide) (by decide) (by decide)).trans rfl
